import Mathlib

/-
Verification of the orchestration core in src/openbr/core/core.cpp.

The development shallowly embeds the data model and the operations of the
core: the blocked enrollment pipeline (AlgorithmCore::enroll), the pairwise
comparison pipeline (AlgorithmCore::compare), model serialization
(AlgorithmCore::store / AlgorithmCore::load), the descriptor language
(AlgorithmCore::init), and the algorithm registry
(AlgorithmManager::getAlgorithm).  External collaborators (Transform,
Distance, Gallery, Output) are modelled at their interface boundary:
a Gallery is the list of blocks its readBlock calls deliver, a Transform is
a per-record projection function, and a Distance writes one score per
(query, target) pair of the two batches handed to it.
-/

namespace OpenBR

/-- Ceiling division on naturals, mirroring the C expression
ceil(1.0 * a / b) used by the core for sub-block and block counts. -/
def ceilDiv (a b : Nat) : Nat := (a + b - 1) / b

/-- One enrolled record: identity metadata (the file name used for
deduplication) plus an opaque payload standing for the template data. -/
structure Template where
  name : Nat
  payload : Nat
deriving DecidableEq

/-! ## Blocked enrollment: block and sub-block partitioning

AlgorithmCore::enroll (core.cpp lines 142-175) slices the materialized
input with QList::mid at global offsets block*blockSize + subBlock*subBlockSize,
taking subBlockSize records per slice, and breaks out of the inner loop on an
empty slice. -/

/-- QList::mid applied to the input: the slice of sz records starting at
offset off, clamped to the list. -/
def subBlockMid (i : List α) (off sz : Nat) : List α := (i.drop off).take sz

/-- The inner sub-block loop of AlgorithmCore::enroll for one block: at most
numSub slices of size sz taken at consecutive offsets starting at off,
stopping at the first empty slice (the `if (data.isEmpty()) break`). -/
def enrollSubBlocks (i : List α) (off sz : Nat) : Nat → List (List α)
  | 0 => []
  | k+1 =>
    let data := subBlockMid i off sz
    if data.isEmpty then [] else data :: enrollSubBlocks i (off + sz) sz k

/-- The full double loop of AlgorithmCore::enroll: for each block index the
inner sub-block loop starting at offset block*blockSize. -/
def enrollChunks (i : List α) (blockSize sz numSub blocks : Nat) : List (List α) :=
  (List.range blocks).flatMap fun b => enrollSubBlocks i (b * blockSize) sz numSub

/-- Sub-block size from core.cpp line 149: 4 * max(1, parallelism). -/
def subBlockSize (parallelism : Nat) : Nat := 4 * max 1 parallelism

/-- The chunking performed by one enrollment pass, with the counts computed
as in core.cpp lines 142 and 150: numSubBlocks = ceil(blockSize / subBlockSize),
and the number of blocks.  The block count comes from Globals->blocks, which
is outside src; modelled from the spec (25 records with blockSize 10 span
3 blocks, i.e. ceil(inputSize / blockSize)). -/
def enrollChunksCfg (i : List α) (blockSize parallelism : Nat) : List (List α) :=
  enrollChunks i blockSize (subBlockSize parallelism)
    (ceilDiv blockSize (subBlockSize parallelism)) (ceilDiv i.length blockSize)

/-! Helper lemmas about the chunking. -/

lemma enrollSubBlocks_flatten (i : List α) (sz : Nat) (hsz : 0 < sz) :
    ∀ (k off : Nat), (enrollSubBlocks i off sz k).flatten = (i.drop off).take (k * sz) := by
  intro k
  induction k with
  | zero => intro off; simp [enrollSubBlocks]
  | succ k ih =>
    intro off
    by_cases h : subBlockMid i off sz = []
    · have hdrop : i.drop off = [] := by
        rcases List.take_eq_nil_iff.mp h with h0 | h0
        · omega
        · exact h0
      simp [enrollSubBlocks, subBlockMid, h, hdrop]
    · have hne : (subBlockMid i off sz).isEmpty = false := by
        simpa [List.isEmpty_iff] using h
      have hrec := ih (off + sz)
      have hdd : i.drop (off + sz) = (i.drop off).drop sz := by
        rw [List.drop_drop, Nat.add_comm]
      calc (enrollSubBlocks i off sz (k+1)).flatten
          = subBlockMid i off sz ++ (enrollSubBlocks i (off + sz) sz k).flatten := by
            simp [enrollSubBlocks, hne]
        _ = (i.drop off).take sz ++ ((i.drop off).drop sz).take (k * sz) := by
            rw [hrec, hdd, subBlockMid]
        _ = (i.drop off).take (sz + k * sz) := by
            rw [List.take_add]
        _ = (i.drop off).take ((k+1) * sz) := by
            congr 1
            ring

lemma flatMap_range_take (i : List α) (B : Nat) :
    ∀ n : Nat, ((List.range n).flatMap fun b => (i.drop (b * B)).take B) = i.take (n * B) := by
  intro n
  induction n with
  | zero => simp
  | succ n ih =>
    rw [List.range_succ, List.flatMap_append, ih]
    simp only [List.flatMap_cons, List.flatMap_nil, List.append_nil]
    rw [← List.take_add]
    congr 1
    ring

lemma ceilDiv_mul_of_dvd (sz B : Nat) (hsz : 0 < sz) (hdvd : sz ∣ B) :
    ceilDiv B sz * sz = B := by
  rcases hdvd with ⟨m, rfl⟩
  have hm : ceilDiv (sz * m) sz = m := by
    unfold ceilDiv
    rcases Nat.eq_zero_or_pos m with rfl | hm
    · have h0 : sz * 0 + sz - 1 = sz - 1 := by omega
      rw [h0]
      exact Nat.div_eq_of_lt (by omega)
    · have h1 : sz * m + sz - 1 = sz * m + (sz - 1) := by omega
      rw [h1, Nat.mul_add_div hsz]
      have h2 : (sz - 1) / sz = 0 := Nat.div_eq_of_lt (by omega)
      omega
  rw [hm, Nat.mul_comm]

lemma le_ceilDiv_mul (n B : Nat) (hB : 0 < B) : n ≤ ceilDiv n B * B := by
  unfold ceilDiv
  rw [Nat.mul_comm]
  have hdm := Nat.div_add_mod (n + B - 1) B
  have hlt : (n + B - 1) % B < B := Nat.mod_lt _ hB
  omega

lemma flatten_flatMap (l : List β) (f : β → List (List α)) :
    (l.flatMap f).flatten = l.flatMap fun b => (f b).flatten := by
  induction l with
  | nil => simp
  | cons b l ih => simp [List.flatMap_cons, List.flatten_append, ih]

/-- Central tiling fact: when the sub-block size divides the block size, the
chunking of one enrollment pass reproduces the input exactly (no gap, no
overlap, order preserved). -/
lemma enrollChunksCfg_flatten_of_dvd (i : List α) (B p : Nat) (hB : 0 < B)
    (hdvd : subBlockSize p ∣ B) : (enrollChunksCfg i B p).flatten = i := by
  have hsz : 0 < subBlockSize p := by
    unfold subBlockSize
    have := Nat.le_max_left 1 p
    omega
  unfold enrollChunksCfg enrollChunks
  rw [flatten_flatMap]
  have hstep : ∀ b : Nat,
      (enrollSubBlocks i (b * B) (subBlockSize p) (ceilDiv B (subBlockSize p))).flatten
        = (i.drop (b * B)).take B := by
    intro b
    rw [enrollSubBlocks_flatten i (subBlockSize p) hsz, ceilDiv_mul_of_dvd _ _ hsz hdvd]
  calc ((List.range (ceilDiv i.length B)).flatMap fun b =>
          (enrollSubBlocks i (b * B) (subBlockSize p) (ceilDiv B (subBlockSize p))).flatten)
      = ((List.range (ceilDiv i.length B)).flatMap fun b => (i.drop (b * B)).take B) := by
        exact List.flatMap_congr fun b _ => hstep b
    _ = i.take (ceilDiv i.length B * B) := flatMap_range_take i B _
    _ = i := List.take_of_length_le (le_ceilDiv_mul i.length B hB)

/-! ## Blocked enrollment: one pass of AlgorithmCore::enroll

The pass is modelled as a function of the gallery mode flags (whether the
gallery descriptor contains "read", "cache", "noDuplicates"), the record
list already stored in the gallery, and the materialized input.  The
Transform collaborator is modelled at the interface as a per-record
projection tf that is applied to every record handed to `data >> *transform`;
projectedCount counts those records.  The fields track the returned
FileList, the records appended to the gallery, and whether the pass ended
in one of the two early `return fileList` statements inside the do-while
loop (cache hit, or empty materialized input). -/

structure EnrollConfig where
  blockSize : Nat
  parallelism : Nat
  readMode : Bool
  cacheMode : Bool
  noDuplicates : Bool
deriving DecidableEq

structure EnrollOutcome where
  fileList : List Template
  written : List Template
  projectedCount : Nat
  earlyReturn : Bool
deriving DecidableEq

/-- The deduplication step of core.cpp lines 157-160: scan the sub-block
back to front and remove every record whose name is contained in the list
of names read from the gallery at the start of the pass.  Index-decreasing
removal with a predicate that does not depend on the surviving elements is
exactly an order-preserving filter. -/
def dedupChunk (fileNames : List Nat) (noDup : Bool) (data : List Template) : List Template :=
  if noDup then data.filter (fun t => !(fileNames.contains t.name)) else data

/-- One pass of the do-while loop of AlgorithmCore::enroll
(core.cpp lines 129-181). -/
def enrollPass (tf : Template → Template) (cfg : EnrollConfig)
    (existing : List Template) (input : List Template) : EnrollOutcome :=
  let fileList0 := if cfg.readMode || cfg.cacheMode then existing else []
  if !fileList0.isEmpty && cfg.cacheMode then
    { fileList := fileList0, written := [], projectedCount := 0, earlyReturn := true }
  else if input.isEmpty then
    { fileList := fileList0, written := [], projectedCount := 0, earlyReturn := true }
  else
    let fileNames := if cfg.noDuplicates then fileList0.map Template.name else []
    let chunks := enrollChunksCfg input cfg.blockSize cfg.parallelism
    let processed := chunks.map fun c => (dedupChunk fileNames cfg.noDuplicates c).map tf
    { fileList := fileList0 ++ processed.flatten
      written := processed.flatten
      projectedCount := (chunks.map fun c => (dedupChunk fileNames cfg.noDuplicates c).length).sum
      earlyReturn := false }

/-- The outer do-while loop of AlgorithmCore::enroll: repeat the pass while
the input carries the infinite marker, where each completed pass appends its
written records to the gallery.  Divergence is made observable with fuel:
none means the loop did not return within the given number of iterations. -/
def enrollLoop (tf : Template → Template) (cfg : EnrollConfig) (infinite : Bool)
    (input : List Template) : Nat → List Template → Option (List Template)
  | 0, _ => none
  | fuel+1, g =>
    let out := enrollPass tf cfg g input
    if out.earlyReturn then some out.fileList
    else if infinite then enrollLoop tf cfg infinite input fuel (g ++ out.written)
    else some out.fileList

/-! Helper lemmas about the pass. -/

lemma flatten_map_filter_map (L : List (List Template)) (p : Template → Bool)
    (f : Template → Template) :
    (L.map fun c => (c.filter p).map f).flatten = (L.flatten.filter p).map f := by
  induction L with
  | nil => simp
  | cons c L ih => simp [List.filter_append, List.map_append, ih]

lemma enrollPass_cache_hit (tf : Template → Template) (cfg : EnrollConfig)
    (existing input : List Template) (hc : cfg.cacheMode = true) (hne : existing ≠ []) :
    enrollPass tf cfg existing input
      = { fileList := existing, written := [], projectedCount := 0, earlyReturn := true } := by
  unfold enrollPass
  have h0 : (if cfg.readMode || cfg.cacheMode then existing else []) = existing := by
    simp [hc]
  rw [h0]
  have h1 : (!existing.isEmpty && cfg.cacheMode) = true := by
    simp [hc, List.isEmpty_iff, hne]
  simp [h1]

lemma enrollPass_fresh_fileList (tf : Template → Template) (cfg : EnrollConfig)
    (input : List Template) :
    (enrollPass tf cfg [] input).fileList = (enrollPass tf cfg [] input).written := by
  unfold enrollPass
  have h0 : (if cfg.readMode || cfg.cacheMode then ([] : List Template) else []) = [] := by
    simp
  rw [h0]
  by_cases hi : input.isEmpty <;> simp [hi]

/-! ## Claim theorems for the enrollment pipeline -/

/-- C3 counterexample: enrolling 25 records with blockSize 10 and
parallelism 1 (sub-block size 4, numSubBlocks = ceil(10/4) = 3) does not
yield 25 output records: each block covers 3 sub-blocks of 4 records,
i.e. 12 indices, while consecutive blocks start only 10 indices apart, so
indices 10, 11, 20, 21 are enrolled twice and 29 records are written. -/
theorem enroll_blocksize10_overlap :
    (enrollPass (fun t => t) ⟨10, 1, false, false, false⟩ []
        ((List.range 25).map fun k => ⟨k, 0⟩)).written.length = 29 ∧ (29 : Nat) ≠ 25 := by
  constructor
  · decide
  · decide

/-- C3 (amended): for every finite input enrolled without deduplication,
without the infinite marker and without a cache hit, the block/sub-block
partitioning covers indices 0..n-1 without gap or overlap PROVIDED the
sub-block size 4*max(1,parallelism) divides the block size (as in the
default configuration); then exactly n records are written to the gallery,
in input order.  When the sub-block size does not divide the block size the
last sub-block of each block overlaps the next block. -/
theorem enroll_partition_exact (tf : Template → Template) (cfg : EnrollConfig)
    (existing input : List Template) (hcache : cfg.cacheMode = false)
    (hB : 0 < cfg.blockSize) (hdvd : subBlockSize cfg.parallelism ∣ cfg.blockSize)
    (hnd : cfg.noDuplicates = false) :
    (enrollPass tf cfg existing input).written = input.map tf ∧
    (enrollPass tf cfg existing input).written.length = input.length := by
  have hflat := enrollChunksCfg_flatten_of_dvd input cfg.blockSize cfg.parallelism hB hdvd
  have hw : (enrollPass tf cfg existing input).written = input.map tf := by
    unfold enrollPass
    simp only [hcache, Bool.and_false, Bool.false_eq_true, if_false]
    by_cases hi : input.isEmpty
    · rw [List.isEmpty_iff.mp hi]
      simp [hi]
    · simp only [hi, Bool.false_eq_true, if_false, dedupChunk, hnd]
      rw [← List.map_flatten, hflat]
  exact ⟨hw, by rw [hw, List.length_map]⟩

/-- C3 amended witness: with blockSize 16 and parallelism 1 the sub-block
size 4 divides the block size and 25 records yield exactly 25 records. -/
theorem enroll_partition_exact_witness :
    (0 : Nat) < 16 ∧
    (enrollPass (fun t => t) ⟨16, 1, false, false, false⟩ []
        ((List.range 25).map fun k => ⟨k, 0⟩)).written.length = 25 :=
  ⟨by decide,
   ((enroll_partition_exact (fun t => t) ⟨16, 1, false, false, false⟩ []
      ((List.range 25).map fun k => ⟨k, 0⟩) rfl (by decide) (by decide) rfl).2).trans
     (by decide)⟩

/-- C4: enrollment into the same explicit gallery in cache mode is
idempotent.  A first invocation against an initially empty gallery returns
the record list it wrote; a second invocation, seeing that written list as
the existing gallery contents, reads it, finds it non-empty, and returns it
through the early cache-hit return: the transform is applied to zero
records and nothing further is written. -/
theorem enroll_cache_idempotent (tf : Template → Template) (cfg : EnrollConfig)
    (input : List Template) (hcache : cfg.cacheMode = true)
    (hne : (enrollPass tf cfg [] input).fileList ≠ []) :
    enrollPass tf cfg (enrollPass tf cfg [] input).written input
      = { fileList := (enrollPass tf cfg [] input).fileList, written := [],
          projectedCount := 0, earlyReturn := true } := by
  have hfw := enrollPass_fresh_fileList tf cfg input
  have hne2 : (enrollPass tf cfg [] input).written ≠ [] := by
    rw [← hfw]; exact hne
  rw [enrollPass_cache_hit tf cfg _ input hcache hne2, hfw]

/-- C4 witness: a concrete two-record cache-mode enrollment whose second
invocation is a cache hit. -/
theorem enroll_cache_idempotent_witness :
    (enrollPass (fun t => t) ⟨4, 1, false, true, false⟩ [] [⟨1, 0⟩, ⟨2, 0⟩]).fileList ≠ [] ∧
    enrollPass (fun t => t) ⟨4, 1, false, true, false⟩
        (enrollPass (fun t => t) ⟨4, 1, false, true, false⟩ [] [⟨1, 0⟩, ⟨2, 0⟩]).written
        [⟨1, 0⟩, ⟨2, 0⟩]
      = { fileList := (enrollPass (fun t => t) ⟨4, 1, false, true, false⟩ []
            [⟨1, 0⟩, ⟨2, 0⟩]).fileList,
          written := [], projectedCount := 0, earlyReturn := true } :=
  ⟨by decide,
   enroll_cache_idempotent (fun t => t) ⟨4, 1, false, true, false⟩ [⟨1, 0⟩, ⟨2, 0⟩]
     rfl (by decide)⟩

/-- C5 counterexample: with deduplication requested, a record matching a
pre-existing gallery identity (name 7) is dropped, but the captured name
list is never extended during the pass, so an input carrying the same new
identity twice (name 5) produces a final record list in which identity 5
appears twice. -/
theorem enroll_dedup_duplicate_identities :
    ¬ (((enrollPass (fun t => t) ⟨4, 1, true, false, true⟩ [⟨7, 0⟩]
        [⟨7, 9⟩, ⟨5, 0⟩, ⟨5, 1⟩]).fileList.map Template.name).Nodup) ∧
    ((enrollPass (fun t => t) ⟨4, 1, true, false, true⟩ [⟨7, 0⟩]
        [⟨7, 9⟩, ⟨5, 0⟩, ⟨5, 1⟩]).fileList.map Template.name).count 5 = 2 := by
  constructor
  · decide
  · decide

/-- C5 (amended): with deduplication requested on a gallery read at the
start of the pass, every input record whose identity matches one in the
initially read record list is dropped before projection (no written record
carries a pre-existing identity), and the final record list has no identity
duplicates PROVIDED the input itself carries no duplicate identities, the
existing list is duplicate-free, the projection preserves identities, and
the sub-block size divides the block size.  Duplicates inside the input
survive, because the name list is captured once before the loop. -/
theorem enroll_dedup_nodup (tf : Template → Template) (cfg : EnrollConfig)
    (existing input : List Template)
    (hnd : cfg.noDuplicates = true) (hr : cfg.readMode = true) (hc : cfg.cacheMode = false)
    (hB : 0 < cfg.blockSize) (hdvd : subBlockSize cfg.parallelism ∣ cfg.blockSize)
    (hname : ∀ t, (tf t).name = t.name)
    (hex : (existing.map Template.name).Nodup)
    (hin : (input.map Template.name).Nodup) :
    ((enrollPass tf cfg existing input).fileList.map Template.name).Nodup ∧
    ∀ t ∈ (enrollPass tf cfg existing input).written,
      t.name ∉ existing.map Template.name := by
  have hflat := enrollChunksCfg_flatten_of_dvd input cfg.blockSize cfg.parallelism hB hdvd
  by_cases hi : input.isEmpty
  · have hres : enrollPass tf cfg existing input
        = { fileList := existing, written := [], projectedCount := 0, earlyReturn := true } := by
      unfold enrollPass
      simp [hr, hc, hi]
    rw [hres]
    exact ⟨hex, by intro t ht; simp at ht⟩
  · have hres : enrollPass tf cfg existing input
        = { fileList := existing ++
              (input.filter (fun t => !((existing.map Template.name).contains t.name))).map tf,
            written :=
              (input.filter (fun t => !((existing.map Template.name).contains t.name))).map tf,
            projectedCount :=
              ((enrollChunksCfg input cfg.blockSize cfg.parallelism).map fun c =>
                (dedupChunk (existing.map Template.name) cfg.noDuplicates c).length).sum,
            earlyReturn := false } := by
      unfold enrollPass
      simp only [hr, hc, hi, Bool.and_false, Bool.false_eq_true, if_false, Bool.true_or, if_true,
        hnd, dedupChunk, if_true]
      rw [flatten_map_filter_map, hflat]
    have hwnames :
        ((input.filter (fun t => !((existing.map Template.name).contains t.name))).map tf).map
            Template.name
          = (input.filter (fun t => !((existing.map Template.name).contains t.name))).map
              Template.name := by
      rw [List.map_map]
      exact List.map_congr_left fun u _ => hname u
    have hdropped : ∀ u ∈ input.filter (fun t => !((existing.map Template.name).contains t.name)),
        u.name ∉ existing.map Template.name := by
      intro u hu
      have hpred := (List.mem_filter.mp hu).2
      simp at hpred
      intro hmem
      rcases List.mem_map.mp hmem with ⟨x, hx, hxe⟩
      exact hpred x hx hxe
    rw [hres]
    constructor
    · rw [List.map_append, hwnames]
      rw [List.nodup_append]
      refine ⟨hex, ?_, ?_⟩
      · exact List.Nodup.sublist (List.Sublist.map _ (List.filter_sublist input)) hin
      · intro a ha hamem
        rcases List.mem_map.mp hamem with ⟨u, hu, rfl⟩
        exact hdropped u hu ha
    · intro t ht
      rcases List.mem_map.mp ht with ⟨u, hu, rfl⟩
      rw [hname u]
      exact hdropped u hu

/-- C5 amended witness: identity 1 already in the gallery is dropped, the
remaining identities 2 and 3 are enrolled, and the final list 1,2,3 is
duplicate-free. -/
theorem enroll_dedup_nodup_witness :
    (([⟨1, 0⟩] : List Template).map Template.name).Nodup ∧
    ((enrollPass (fun t => t) ⟨4, 1, true, false, true⟩ [⟨1, 0⟩]
        [⟨1, 5⟩, ⟨2, 0⟩, ⟨3, 0⟩]).fileList.map Template.name).Nodup :=
  ⟨by decide,
   (enroll_dedup_nodup (fun t => t) ⟨4, 1, true, false, true⟩ [⟨1, 0⟩]
      [⟨1, 5⟩, ⟨2, 0⟩, ⟨3, 0⟩] rfl rfl rfl (by decide) (by decide)
      (fun t => rfl) (by decide) (by decide)).1⟩

/-- C9 counterexample: an input carrying the infinite marker does NOT
always loop forever: if the gallery is in cache mode and already holds a
record list, the first iteration takes the early cache-hit return and the
call returns that list, infinite marker notwithstanding.  The same early
return fires for an empty materialized input. -/
theorem enroll_infinite_returns_on_cache_hit :
    enrollLoop (fun t => t) ⟨4, 1, false, true, false⟩ true [⟨2, 0⟩] 1 [⟨1, 0⟩]
      = some [⟨1, 0⟩] := by
  decide

/-- C9 (amended): without the infinite marker the loop performs exactly one
pass and returns its record list, whatever fuel remains; with the infinite
marker it never returns PROVIDED no in-loop early return fires, i.e. the
gallery is not in cache mode and the materialized input is non-empty (a
cache hit or an empty input returns even with the marker). -/
theorem enroll_loop_behavior (tf : Template → Template) (cfg : EnrollConfig)
    (input : List Template) :
    (∀ (g : List Template) (fuel : Nat),
        enrollLoop tf cfg false input (fuel + 1) g
          = some (enrollPass tf cfg g input).fileList)
    ∧ (cfg.cacheMode = false → input ≠ [] →
        ∀ (fuel : Nat) (g : List Template), enrollLoop tf cfg true input fuel g = none) := by
  constructor
  · intro g fuel
    unfold enrollLoop
    by_cases h : (enrollPass tf cfg g input).earlyReturn <;> simp [h]
  · intro hc hin fuel
    have hi : input.isEmpty = false := by
      simp [List.isEmpty_iff, hin]
    induction fuel with
    | zero => intro g; rfl
    | succ fuel ih =>
      intro g
      have hearly : (enrollPass tf cfg g input).earlyReturn = false := by
        unfold enrollPass
        simp [hc, hi]
      unfold enrollLoop
      simp [hearly, ih]

/-- C9 amended witness: a concrete non-infinite call returns the single
pass result at any positive fuel, and the same configuration with the
infinite marker never returns within 2 iterations. -/
theorem enroll_loop_behavior_witness :
    enrollLoop (fun t => t) ⟨4, 1, false, false, false⟩ false [⟨1, 0⟩] 3 []
      = some (enrollPass (fun t => t) ⟨4, 1, false, false, false⟩ [] [⟨1, 0⟩]).fileList ∧
    enrollLoop (fun t => t) ⟨4, 1, false, false, false⟩ true [⟨1, 0⟩] 2 [] = none :=
  ⟨(enroll_loop_behavior (fun t => t) ⟨4, 1, false, false, false⟩ [⟨1, 0⟩]).1 [] 2,
   (enroll_loop_behavior (fun t => t) ⟨4, 1, false, false, false⟩ [⟨1, 0⟩]).2
     rfl (by decide) 2 []⟩

/-! ## Pairwise comparison pipeline: AlgorithmCore::compare

A gallery is modelled as the list of blocks its readBlock calls deliver.
The do-while style loops of AlgorithmCore::compare call readBlock at least
once and consume blocks until the done flag: a gallery holding blocks
delivers them all in order, an empty gallery delivers one empty block.
Distance::compare is modelled at the interface boundary as writing one
score per (query, target) pair of the two batches handed to it. -/

/-- Blocks delivered by one complete streaming pass over a gallery. -/
def readAll (blocks : List (List α)) : List (List α) :=
  match blocks with
  | [] => [[]]
  | bs => bs

/-- Score writes of one Distance::compare(targets, queries, output) call:
one score per (query, target) pair of the two batches. -/
def crossPairs (targets queries : List α) : List (α × α) :=
  queries.flatMap fun q => targets.map fun t => (q, t)

/-- Modelled from the spec: TemplateList::partition is not under src; the
spec describes the sharded path as splitting each block into N aligned
segments per the partition-size list, so segment j holds the next sizes[j]
records. -/
def listPartition (sizes : List Nat) (xs : List α) : List (List α) :=
  match sizes with
  | [] => []
  | n :: rest => xs.take n :: listPartition rest (xs.drop n)

/-- The nested multi-pass join of AlgorithmCore::compare (core.cpp lines
246-276): stream query blocks; per query block form the partition list (a
single partition when no split list is present); per partition index
re-stream the entire target gallery from its beginning; per target block
pair the aligned target partition with the query partition and hand both to
the distance against the output of that partition index.  Each recorded
score write is (partition index, query record, target record). -/
def compareRun (sizes : List Nat) (tBlocks qBlocks : List (List α)) : List (Nat × α × α) :=
  (readAll qBlocks).flatMap fun queries =>
    let queryPartitions := if sizes.isEmpty then [queries] else listPartition sizes queries
    (List.range queryPartitions.length).flatMap fun i =>
      (readAll tBlocks).flatMap fun targets =>
        let targetPartitions := if sizes.isEmpty then [targets] else listPartition sizes targets
        (crossPairs (targetPartitions.getD i []) (queryPartitions.getD i [])).map
          fun p => (i, p)

/-! Helper lemmas about the comparison pipeline. -/

lemma readAll_flatten (blocks : List (List α)) : (readAll blocks).flatten = blocks.flatten := by
  cases blocks with
  | nil => rfl
  | cons b bs => rfl

lemma compareRun_nil (tBlocks qBlocks : List (List α)) :
    compareRun [] tBlocks qBlocks
      = (readAll qBlocks).flatMap fun qs => (readAll tBlocks).flatMap fun ts =>
          (crossPairs ts qs).map fun p => ((0 : Nat), p) := by
  unfold compareRun
  simp [List.range_succ]

lemma crossPairs_length (ts qs : List α) :
    (crossPairs ts qs).length = qs.length * ts.length := by
  induction qs with
  | nil => simp [crossPairs]
  | cons q qs ih =>
    simp only [crossPairs, List.flatMap_cons] at ih ⊢
    rw [List.length_append, List.length_map, ih, List.length_cons]
    ring

lemma count_map_tag_eq [BEq β] [LawfulBEq β] [BEq γ] [LawfulBEq γ] (l : List γ) (a : β) (x : γ) :
    ((l.map fun c => (a, c)).count (a, x)) = l.count x := by
  induction l with
  | nil => simp
  | cons c l ih =>
    simp only [List.map_cons, List.count_cons, ih]
    by_cases hc : c = x
    · subst hc
      simp
    · simp [hc]

lemma count_map_tag_ne [BEq β] [LawfulBEq β] [BEq γ] [LawfulBEq γ] (l : List γ) (a b : β) (x : γ)
    (h : b ≠ a) : ((l.map fun c => (a, c)).count (b, x)) = 0 := by
  rw [List.count_eq_zero]
  intro hmem
  rcases List.mem_map.mp hmem with ⟨c, _, he⟩
  injection he with h1 h2
  exact h h1.symm

lemma crossPairs_count [BEq α] [LawfulBEq α] (ts qs : List α) (q t : α) :
    (crossPairs ts qs).count (q, t) = qs.count q * ts.count t := by
  induction qs with
  | nil => simp [crossPairs]
  | cons q0 qs ih =>
    simp only [crossPairs, List.flatMap_cons] at ih ⊢
    rw [List.count_append, ih, List.count_cons]
    by_cases hq : q0 = q
    · subst hq
      rw [count_map_tag_eq]
      simp
      ring
    · rw [count_map_tag_ne _ _ _ _ (fun he => hq he.symm)]
      simp [hq]

lemma count_range_flatMap [BEq γ] [LawfulBEq γ] (f : Nat → List γ) (i : Nat) (x : γ) :
    ∀ N : Nat, (((List.range N).flatMap fun j => (f j).map fun c => (j, c)).count (i, x))
      = if i < N then (f i).count x else 0 := by
  intro N
  induction N with
  | zero => simp
  | succ N ih =>
    rw [List.range_succ, List.flatMap_append, List.count_append, ih]
    simp only [List.flatMap_cons, List.flatMap_nil, List.append_nil]
    by_cases hiN : i = N
    · subst hiN
      rw [count_map_tag_eq]
      simp
    · rw [count_map_tag_ne _ _ _ _ hiN]
      by_cases h2 : i < N
      · have h3 : i < N + 1 := by omega
        simp [h2, h3]
      · have h3 : ¬ i < N + 1 := by omega
        simp [h2, h3]

lemma length_inner_flatMap (qs : List α) (B : List (List α)) :
    ((B.flatMap fun ts => (crossPairs ts qs).map fun p => ((0 : Nat), p)).length)
      = qs.length * B.flatten.length := by
  induction B with
  | nil => simp
  | cons ts B ih =>
    rw [List.flatMap_cons, List.length_append, List.length_map, crossPairs_length, ih,
      List.flatten_cons, List.length_append]
    ring

lemma length_double_flatMap (A B : List (List α)) :
    ((A.flatMap fun qs => B.flatMap fun ts =>
        (crossPairs ts qs).map fun p => ((0 : Nat), p)).length)
      = A.flatten.length * B.flatten.length := by
  induction A with
  | nil => simp
  | cons qs A ih =>
    rw [List.flatMap_cons, List.length_append, length_inner_flatMap, ih,
      List.flatten_cons, List.length_append]
    ring

lemma count_inner_flatMap [BEq α] [LawfulBEq α] (qs : List α) (B : List (List α)) (q t : α) :
    ((B.flatMap fun ts => (crossPairs ts qs).map fun p => ((0 : Nat), p)).count (0, q, t))
      = qs.count q * B.flatten.count t := by
  induction B with
  | nil => simp
  | cons ts B ih =>
    rw [List.flatMap_cons, List.count_append, count_map_tag_eq, crossPairs_count, ih,
      List.flatten_cons, List.count_append]
    ring

lemma count_double_flatMap [BEq α] [LawfulBEq α] (A B : List (List α)) (q t : α) :
    ((A.flatMap fun qs => B.flatMap fun ts =>
        (crossPairs ts qs).map fun p => ((0 : Nat), p)).count (0, q, t))
      = A.flatten.count q * B.flatten.count t := by
  induction A with
  | nil => simp
  | cons qs A ih =>
    rw [List.flatMap_cons, List.count_append, count_inner_flatMap, ih,
      List.flatten_cons, List.count_append]
    ring

lemma listPartition_length (sizes : List Nat) (xs : List α) :
    (listPartition sizes xs).length = sizes.length := by
  induction sizes generalizing xs with
  | nil => rfl
  | cons n rest ih => simp [listPartition, ih]

lemma listPartition_flatten (sizes : List Nat) (xs : List α) (h : sizes.sum = xs.length) :
    (listPartition sizes xs).flatten = xs := by
  induction sizes generalizing xs with
  | nil =>
    have : xs = [] := List.eq_nil_of_length_eq_zero (by simpa using h.symm)
    simp [listPartition, this]
  | cons n rest ih =>
    simp only [listPartition, List.flatten_cons]
    have hlen : rest.sum = (xs.drop n).length := by
      rw [List.length_drop]
      simp only [List.sum_cons] at h
      omega
    rw [ih (xs.drop n) hlen, List.take_append_drop]

/-! ## Claim theorems for the comparison pipeline -/

/-- C1: for a non-sharded comparison (no partition-size list) over a target
gallery delivering T records in total and a query gallery delivering Q
records in total, the pipeline writes exactly T * Q similarity scores, and
each (query, target) record pair receives exactly one score per occurrence
of the two records: its score count is the product of the multiplicities of
the query in the query gallery and of the target in the target gallery (in
particular exactly one for records occurring once).  The outer loop streams
query blocks and the whole target gallery is re-streamed once per
query block. -/
theorem compare_unsharded_counts (tBlocks qBlocks : List (List Nat)) :
    (compareRun [] tBlocks qBlocks).length
        = tBlocks.flatten.length * qBlocks.flatten.length
    ∧ ∀ q t : Nat, (compareRun [] tBlocks qBlocks).count (0, q, t)
        = qBlocks.flatten.count q * tBlocks.flatten.count t := by
  rw [compareRun_nil]
  constructor
  · rw [length_double_flatMap, readAll_flatten, readAll_flatten]
    ring
  · intro q t
    rw [count_double_flatMap, readAll_flatten, readAll_flatten]

/-- C2: for a sharded comparison whose partition-size list sums to the full
population of both galleries (each delivered in one block), shard i
receives exactly the scores of query partition i crossed with target
partition i: the count of a score (i, q, t) is the product of the
multiplicities of q in query partition i and of t in target partition i, so
no off-diagonal pair is ever scored, no score is written twice, and the
partitions tile the two populations exactly. -/
theorem compare_sharded_diagonal (sizes : List Nat) (ts qs : List Nat)
    (hne : sizes ≠ []) (hq : sizes.sum = qs.length) (ht : sizes.sum = ts.length) :
    (∀ i q t, (compareRun sizes [ts] [qs]).count (i, q, t)
        = ((listPartition sizes qs).getD i []).count q
            * ((listPartition sizes ts).getD i []).count t)
    ∧ (listPartition sizes qs).flatten = qs
    ∧ (listPartition sizes ts).flatten = ts := by
  have hE : sizes.isEmpty = false := by
    simp [List.isEmpty_iff, hne]
  have hrun : compareRun sizes [ts] [qs]
      = (List.range sizes.length).flatMap fun i =>
          (crossPairs ((listPartition sizes ts).getD i [])
            ((listPartition sizes qs).getD i [])).map fun p => (i, p) := by
    unfold compareRun readAll
    simp [hE, listPartition_length]
  refine ⟨?_, listPartition_flatten sizes qs hq, listPartition_flatten sizes ts ht⟩
  intro i q t
  rw [hrun]
  rw [count_range_flatMap
    (fun j => crossPairs ((listPartition sizes ts).getD j []) ((listPartition sizes qs).getD j []))
    i (q, t) sizes.length]
  by_cases hi : i < sizes.length
  · rw [if_pos hi, crossPairs_count]
  · rw [if_neg hi]
    have hq0 : (listPartition sizes qs).getD i [] = [] := by
      apply List.getD_eq_default
      rw [listPartition_length]
      omega
    rw [hq0]
    simp

/-- C2 witness: partition sizes 1 and 2 over populations of three records;
the pair (2, 30), both lying in partition 1, is scored once in shard 1. -/
theorem compare_sharded_diagonal_witness :
    (([1, 2] : List Nat).sum = ([0, 1, 2] : List Nat).length) ∧
    (compareRun [1, 2] [[10, 20, 30]] [[0, 1, 2]]).count (1, 2, 30)
      = ((listPartition [1, 2] [0, 1, 2]).getD 1 []).count 2
          * ((listPartition [1, 2] [10, 20, 30]).getD 1 []).count 30 :=
  ⟨by decide,
   (compare_sharded_diagonal [1, 2] [10, 20, 30] [0, 1, 2]
      (by decide) (by decide) (by decide)).1 1 2 30⟩

/-- The opening of AlgorithmCore::compare (core.cpp line 219): a query
gallery descriptor equal to "." is silently replaced by the target gallery
descriptor before either gallery is resolved.  env gives the blocks each
named gallery delivers. -/
def compareTop (env : String → List (List Nat)) (sizes : List Nat)
    (targetGallery queryGallery : String) : List (Nat × Nat × Nat) :=
  let queryGallery := if queryGallery = "." then targetGallery else queryGallery
  compareRun sizes (env targetGallery) (env queryGallery)

/-- C10: invoking the comparison with query gallery ".", the query gallery
is silently replaced by the target gallery: the run equals the comparison
of the target gallery against itself and, non-sharded, writes exactly T * T
scores for a target population of T records. -/
theorem compare_query_dot_alias (env : String → List (List Nat)) (t : String) :
    compareTop env [] t "." = compareRun [] (env t) (env t)
    ∧ (compareTop env [] t ".").length
        = (env t).flatten.length * (env t).flatten.length := by
  have halias : compareTop env [] t "." = compareRun [] (env t) (env t) := by
    unfold compareTop
    simp
  refine ⟨halias, ?_⟩
  rw [halias, compareRun_nil, length_double_flatMap, readAll_flatten]

/-! ## Model serialization: AlgorithmCore::store and AlgorithmCore::load

The QDataStream is modelled at the granularity the core writes: name,
opaque component blob, flag.  Transform::store/load and
Distance::store/load are collaborators that write and read back their own
blob, so a blob is one opaque token.  QtUtils::writeFile and
QtUtils::readFile compress and decompress the stream as a whole and are
outside src; the codec pair is a parameter assumed to round-trip. -/

inductive SerTok where
  | str (s : String)
  | blob (b : Nat)
  | flag (b : Bool)
deriving DecidableEq

/-- The persisted state of an AlgorithmCore: its name, the transform blob,
and the distance blob when a distance component is present. -/
structure AlgorithmModel where
  name : String
  transformBlob : Nat
  distanceBlob : Option Nat
deriving DecidableEq

/-- AlgorithmCore::store (core.cpp lines 77-92): write the name, the
transform blob, the hasDistance flag, then the distance blob iff a distance
is present, and compress the whole stream. -/
def store (comp : List SerTok → List SerTok) (m : AlgorithmModel) : List SerTok :=
  comp ([SerTok.str m.name, SerTok.blob m.transformBlob, SerTok.flag m.distanceBlob.isSome]
    ++ (match m.distanceBlob with
        | some d => [SerTok.blob d]
        | none => []))

/-- AlgorithmCore::load (core.cpp lines 94-108): decompress the whole
stream, read the name (re-resolved through the abbreviation table to
rebuild the shells while the stored name is kept as the instance name),
populate the transform from its blob, read the hasDistance flag and
populate the distance iff the flag is set.  A stream that does not match
the format (truncated, or an indicated-but-absent distance blob) is the
fatal-error outcome none. -/
def load (decomp : List SerTok → List SerTok) (bytes : List SerTok) : Option AlgorithmModel :=
  match decomp bytes with
  | SerTok.str n :: SerTok.blob tb :: SerTok.flag h :: rest =>
    if h then
      match rest with
      | [SerTok.blob d] => some { name := n, transformBlob := tb, distanceBlob := some d }
      | _ => none
    else
      match rest with
      | [] => some { name := n, transformBlob := tb, distanceBlob := none }
      | _ => none
  | _ => none

/-- C6: model serialization round-trips.  store writes name, transform
blob, hasDistance flag, then the distance blob present iff hasDistance,
compressed as a whole; load of that stream reproduces the stored state
exactly (hence components populated from identical blobs behave
identically), and in particular the loaded instance has a distance
component iff the stored one did. -/
theorem store_load_roundtrip (comp decomp : List SerTok → List SerTok)
    (hround : ∀ s, decomp (comp s) = s) (m : AlgorithmModel) :
    load decomp (store comp m) = some m
    ∧ ∀ m2, load decomp (store comp m) = some m2 →
        m2.distanceBlob.isSome = m.distanceBlob.isSome := by
  have h1 : load decomp (store comp m) = some m := by
    obtain ⟨mn, mt, md⟩ := m
    unfold load store
    rw [hround]
    cases md with
    | none => simp
    | some d => simp
  refine ⟨h1, fun m2 h2 => ?_⟩
  rw [h1] at h2
  injection h2 with h3
  rw [h3]

/-- C6 witness: a concrete round trip through the identity codec for a
model that carries a distance blob. -/
theorem store_load_roundtrip_witness :
    (∀ s : List SerTok, id (id s) = s) ∧
    load id (store id { name := "alg", transformBlob := 3, distanceBlob := some 5 })
      = some { name := "alg", transformBlob := 3, distanceBlob := some 5 } :=
  ⟨fun _ => rfl,
   (store_load_roundtrip id id (fun _ => rfl)
      { name := "alg", transformBlob := 3, distanceBlob := some 5 }).1⟩

/-! ## Algorithm registry: AlgorithmManager::getAlgorithm

The registry is the only shared mutable state of the core.  A lookup
builds a candidate outside the lock on a miss, then commits it inside the
lock only if the name is still absent, and finally returns whatever the map
holds for the name.  The lock serializes the commits, so an execution is a
sequence of commit events; instances carry a numeric identity standing for
pointer identity. -/

/-- The locked critical section of AlgorithmManager::getAlgorithm
(core.cpp lines 349-352): insert the candidate only if the name is still
absent; a losing candidate leaves the map unchanged and is discarded. -/
def insertIfAbsent (reg : List (String × Nat)) (n : String) (v : Nat) : List (String × Nat) :=
  if (reg.lookup n).isSome then reg else (n, v) :: reg

/-- Registry contents after a prefix of the serialized commit events. -/
def applyCommits (reg : List (String × Nat)) (evs : List (String × Nat)) : List (String × Nat) :=
  evs.foldl (fun r e => insertIfAbsent r e.1 e.2) reg

/-- What the final `return algorithms[algorithm]` observes after the given
commits, including the fatal rejection of the empty name (core.cpp line
343). -/
def getAlgorithmResult (evs : List (String × Nat)) (n : String) : Option Nat :=
  if n = "" then none else (applyCommits [] evs).lookup n

lemma applyCommits_persist (evs : List (String × Nat)) (reg : List (String × Nat))
    (n : String) (v : Nat) (hv : reg.lookup n = some v) :
    (applyCommits reg evs).lookup n = some v := by
  induction evs generalizing reg with
  | nil => exact hv
  | cons e evs ih =>
    rcases e with ⟨en, ev⟩
    show (applyCommits (insertIfAbsent reg en ev) evs).lookup n = some v
    apply ih
    unfold insertIfAbsent
    by_cases h : (reg.lookup en).isSome
    · rw [if_pos h]
      exact hv
    · rw [if_neg h]
      by_cases he : n = en
      · subst he
        rw [hv] at h
        exact absurd rfl h
      · have hb : (n == en) = false := beq_eq_false_iff_ne.mpr he
        simp [List.lookup_cons, hb, hv]

/-- C7: for every non-empty algorithm name, once some lookup observes an
instance registered under the name, every later lookup observes the same
instance (the registered binding never changes), and committing any losing
candidate under that name leaves the registry unchanged (the candidate is
discarded and the caller receives whatever is registered). -/
theorem registry_single_instance (evs : List (String × Nat)) (n : String) (v : Nat)
    (i j : Nat) (hij : i ≤ j)
    (hv : getAlgorithmResult (evs.take i) n = some v) :
    getAlgorithmResult (evs.take j) n = some v
    ∧ ∀ w, insertIfAbsent (applyCommits [] (evs.take j)) n w
        = applyCommits [] (evs.take j) := by
  have hn : ¬ (n = "") := by
    intro h
    unfold getAlgorithmResult at hv
    rw [if_pos h] at hv
    exact Option.noConfusion hv
  have hlook : (applyCommits [] (evs.take i)).lookup n = some v := by
    unfold getAlgorithmResult at hv
    rwa [if_neg hn] at hv
  have hj : evs.take j = evs.take i ++ (evs.drop i).take (j - i) := by
    rw [← List.take_add]
    congr 1
    omega
  have happ : applyCommits [] (evs.take j)
      = applyCommits (applyCommits [] (evs.take i)) ((evs.drop i).take (j - i)) := by
    rw [hj]
    unfold applyCommits
    rw [List.foldl_append]
  have hres : (applyCommits [] (evs.take j)).lookup n = some v := by
    rw [happ]
    exact applyCommits_persist _ _ n v hlook
  constructor
  · unfold getAlgorithmResult
    rw [if_neg hn]
    exact hres
  · intro w
    unfold insertIfAbsent
    rw [hres]
    simp

/-- C7 witness: two racing candidates committed under the same name; the
lookup after the first commit and the lookup after both commits observe
the first instance. -/
theorem registry_single_instance_witness :
    ((1 : Nat) ≤ 2) ∧ getAlgorithmResult ([("a", 10), ("a", 20)].take 2) "a" = some 10 :=
  ⟨by decide,
   (registry_single_instance [("a", 10), ("a", 20)] "a" 10 1 2 (by decide) (by decide)).1⟩

/-! ## Descriptor parsing: AlgorithmCore::init

The parse arm applies when the descriptor is not a pre-built model path,
not an existing file, and not a registered abbreviation.  QtUtils::parse is
outside src; the spec says parsing splits the descriptor on colons, so the
split is modelled from the spec over character lists. -/

/-- Modelled from the spec: split the descriptor on the colon character;
the result always holds at least one token. -/
def splitColon : List Char → List (List Char)
  | [] => [[]]
  | c :: rest =>
    match splitColon rest with
    | [] => [[]]
    | w :: ws => if c = ':' then [] :: w :: ws else (c :: w) :: ws

/-- The DistributeTemplate wrapping of core.cpp line 316, applied to the
feature token unless distribution is disabled. -/
def wrapDistribute (w : List Char) : List Char :=
  "DistributeTemplate(".toList ++ w ++ ")".toList

/-- Result of descriptor resolution: the transform and the optional
distance built by the capability factories. -/
structure ParsedAlgorithm (T D : Type) where
  transform : T
  distance : Option D
deriving DecidableEq

/-- The descriptor-parse arm of AlgorithmCore::init (core.cpp lines
310-321): split on colons; a token count other than one or two is the
fatal `Invalid algorithm format` outcome none; the first token (wrapped in
DistributeTemplate unless disabled) instantiates the transform via the
factory mkT; a second token, when present, instantiates the distance via
the factory mkD, and its absence leaves the instance in classifier mode. -/
def initParse (mkT : List Char → T) (mkD : List Char → D) (distribute : Bool)
    (desc : List Char) : Option (ParsedAlgorithm T D) :=
  let words := splitColon desc
  if words.length < 1 ∨ words.length > 2 then none
  else
    let w0 := if distribute then wrapDistribute (words.getD 0 []) else words.getD 0 []
    some { transform := mkT w0
           distance := if words.length > 1 then some (mkD (words.getD 1 [])) else none }

lemma splitColon_ne_nil (s : List Char) : splitColon s ≠ [] := by
  cases s with
  | nil => simp [splitColon]
  | cons c rest =>
    simp only [splitColon]
    cases h : splitColon rest with
    | nil => simp
    | cons w ws =>
      by_cases hc : c = ':' <;> simp [hc]

/-- C8: for a descriptor reaching the parse arm, splitting on colons gives
at least one token; with exactly one token the parse succeeds with no
distance component (classifier mode), with exactly two tokens it succeeds
with the distance instantiated from the second token, and it fails with the
fatal configuration error exactly when there are more than two tokens. -/
theorem init_parse_tokens (mkT : List Char → T) (mkD : List Char → D)
    (distribute : Bool) (desc : List Char) :
    ((splitColon desc).length = 1 →
        initParse mkT mkD distribute desc
          = some { transform := mkT (if distribute then
                       wrapDistribute ((splitColon desc).getD 0 [])
                     else (splitColon desc).getD 0 []),
                   distance := none })
    ∧ ((splitColon desc).length = 2 →
        initParse mkT mkD distribute desc
          = some { transform := mkT (if distribute then
                       wrapDistribute ((splitColon desc).getD 0 [])
                     else (splitColon desc).getD 0 []),
                   distance := some (mkD ((splitColon desc).getD 1 [])) })
    ∧ (initParse mkT mkD distribute desc = none ↔ 2 < (splitColon desc).length) := by
  have hpos : 0 < (splitColon desc).length :=
    List.length_pos.mpr (splitColon_ne_nil desc)
  refine ⟨?_, ?_, ?_, ?_⟩
  · intro h1
    unfold initParse
    rw [if_neg (by omega)]
    simp [h1]
  · intro h2
    unfold initParse
    rw [if_neg (by omega)]
    simp [h2]
  · intro hn
    unfold initParse at hn
    by_cases hc : (splitColon desc).length < 1 ∨ (splitColon desc).length > 2
    · omega
    · rw [if_neg hc] at hn
      exact absurd hn (by simp)
  · intro hgt
    unfold initParse
    rw [if_pos (Or.inr hgt)]

/-- C8 witness: the two-token descriptor a:b parses with distance token b,
the one-token descriptor a parses in classifier mode, and a:b:c is the
fatal outcome. -/
theorem init_parse_tokens_witness :
    (splitColon ("a:b".toList)).length = 2 ∧
    initParse (fun w => w) (fun w => w) false ("a:b".toList)
      = some { transform := (if false then
                   wrapDistribute ((splitColon ("a:b".toList)).getD 0 [])
                 else (splitColon ("a:b".toList)).getD 0 []),
               distance := some ((splitColon ("a:b".toList)).getD 1 []) } :=
  ⟨by decide,
   (init_parse_tokens (fun w => w) (fun w => w) false ("a:b".toList)).2.1 (by decide)⟩
